import Mathlib

/-!
# Verification of the BigNum arbitrary-precision decimal arithmetic engine

Shallow embedding of `src/bignum.h`.  A `Num`'s digit string is modelled as a
`List Nat`, most-significant digit first, each entry the `val` of the stored
character (`val c = c - '0'`, `unval n = n + '0'` are inverse bijections
between decimal characters and the numbers 0–9, so the list of digit values
carries exactly the information of the C++ `std::string digits`).

Loops that scan the string from its least-significant end (`add`, `multiply`'s
inner loops, `decrement`) are embedded as structural recursions over the
reversed list; prepending a character to the C++ accumulator corresponds to
consing onto the least-significant-first result, which is reversed back at the
end.
-/

namespace BigNum

/-- Numeric value of a least-significant-first digit list. -/
def valRev : List Nat → Nat
  | [] => 0
  | d :: ds => d + 10 * valRev ds

/-- Numeric value of a most-significant-first digit list (the order stored in
`Num.digits`). -/
def val (l : List Nat) : Nat := valRev l.reverse

/-- Canonical form (spec glossary): a non-empty sequence of decimal digits
with no leading zero, except the single digit `0` itself. -/
def Canonical (l : List Nat) : Prop :=
  l ≠ [] ∧ (∀ d ∈ l, d < 10) ∧ (l.head? = some 0 → l = [0])

instance (l : List Nat) : Decidable (Canonical l) :=
  inferInstanceAs (Decidable (l ≠ [] ∧ (∀ d ∈ l, d < 10) ∧ (l.head? = some 0 → l = [0])))

/-- The character written for digit `d`: `unval` in the source
(`return n + '0'`). -/
def unval (d : Nat) : Char := Char.ofNat (d + 48)

/-- The digit-by-digit scan of `compare` once the two lengths are known to be
equal: first differing position decides, `1` when `x`'s digit is larger. -/
def compareLex : List Nat → List Nat → Int
  | [], _ => 0
  | x :: xs, ys =>
    if x > ys.headD 0 then 1
    else if x < ys.headD 0 then -1
    else compareLex xs ys.tail

/-- `BigNum::compare`: longer digit sequence wins, equal lengths are compared
digit by digit from the most significant end. -/
def compare (x y : List Nat) : Int :=
  if x.length > y.length then 1
  else if x.length < y.length then -1
  else compareLex x y

/-- The tail of the carry loop of `BigNum::add` once one operand is
exhausted: every missing digit contributes `0`, so each step adds only the
carry (`dsum = drem; if (xind >= 0) dsum += ...` with the guard false), and a
final pending carry appends the digit `1`. -/
def carryRev : List Nat → Nat → List Nat
  | [], c => if c = 0 then [] else [c]
  | y :: ys, c =>
    if 10 ≤ y + c then (y + c - 10) :: carryRev ys 1 else (y + c) :: carryRev ys 0

/-- The carry loop of `BigNum::add`, on least-significant-first operands with
incoming carry `c`; runs while either operand has digits left or a carry is
pending (`while (xind >= 0 || yind >= 0 || drem == 1)`). -/
def addRev : List Nat → List Nat → Nat → List Nat
  | [], ys, c => carryRev ys c
  | x :: xs, [], c => carryRev (x :: xs) c
  | x :: xs, y :: ys, c =>
    if 10 ≤ x + y + c then (x + y + c - 10) :: addRev xs ys 1
    else (x + y + c) :: addRev xs ys 0

/-- `BigNum::add`: the operand with more digits becomes `x`
(`if (m.digits.length() >= n.digits.length())`), then the carry loop runs from
the least-significant ends. -/
def add (m n : List Nat) : List Nat :=
  if n.length ≤ m.length then (addRev m.reverse n.reverse 0).reverse
  else (addRev n.reverse m.reverse 0).reverse

/-- The inner loop of `BigNum::multiply`: one digit `d` of `y` times the whole
of `x` (least-significant first), with carry `c`
(`dprod = val(x.digits[xind]) * val(y.digits[yind]) + drem`), the final carry
prepended when positive (`if (drem > 0) dtotal = unval(drem) + dtotal`). -/
def mulDigitRev : List Nat → Nat → Nat → List Nat
  | [], _, c => if 0 < c then [c] else []
  | x :: xs, d, c =>
    if 10 ≤ x * d + c then
      (x * d + c - (x * d + c) / 10 * 10) :: mulDigitRev xs d ((x * d + c) / 10)
    else (x * d + c) :: mulDigitRev xs d 0

/-- The outer loop of `BigNum::multiply`: for each digit of `y` from the
least-significant end, build the partial product `dtotal` (shifted by
`zeroes` trailing zero digits) and fold it into the running `product` with
`add`.  `xr` and `ys` are the reversed digit lists of `x` and of the
still-unprocessed part of `y`; `product` is most-significant first. -/
def mulLoop (xr : List Nat) : List Nat → Nat → List Nat → List Nat
  | [], _, product => product
  | yd :: yr, zeroes, product =>
    mulLoop xr yr (zeroes + 1)
      (add product ((mulDigitRev xr yd 0).reverse ++ List.replicate zeroes 0))

/-- `BigNum::multiply`: short-circuit when either operand is the single digit
`0`, otherwise the longer operand becomes `x` and the partial products of
`y`'s digits are accumulated starting from `product = "0"`. -/
def multiply (m n : List Nat) : List Nat :=
  if m = [0] ∨ n = [0] then [0]
  else if n.length ≤ m.length then mulLoop m.reverse n.reverse 0 [0]
  else mulLoop n.reverse m.reverse 0 [0]

/-- The borrow scan of `BigNum::decrement` while `decr` is still set, on the
least-significant-first digit list.  `longer` records whether the original
string had more than one digit (`n.digits.length() > 1` in the break
condition); the break at the most-significant digit `1` drops that digit,
a `0` digit becomes `9` with the borrow continuing, and the first other digit
absorbs the borrow, the remaining digits copied unchanged. -/
def decBorrow (longer : Bool) : List Nat → List Nat
  | [] => []
  | d :: ds =>
    if ds = [] ∧ d = 1 ∧ longer = true then []
    else if d = 0 then 9 :: decBorrow longer ds
    else (d - 1) :: ds

/-- `BigNum::decrement`. -/
def decrement (n : List Nat) : List Nat :=
  (decBorrow (decide (1 < n.length)) n.reverse).reverse

/-- The `while (p.digits != "0")` loop of `BigNum::power`, with explicit fuel
bounding the number of iterations (the C++ loop has no intrinsic bound and
diverges on malformed exponents): `none` means the fuel ran out before the
exponent reached `0`. -/
def powerLoop (n : List Nat) : Nat → List Nat → List Nat → Option (List Nat)
  | 0, p, res => if p = [0] then some res else none
  | fuel + 1, p, res =>
    if p = [0] then some res
    else powerLoop n fuel (decrement p) (multiply n res)

/-- `BigNum::power`: `res` starts at `"1"` and is multiplied by `n` once per
loop iteration while the exponent is decremented down to `"0"`. -/
def power (n p : List Nat) (fuel : Nat) : Option (List Nat) :=
  powerLoop n fuel p [1]

/-- The fractional-digit loop of `BigNum::scino`
(`for (int i = 1; i < sigfigs; i++)`): position `i` beyond the available
digits (`i > n.digits.length()-1`) emits `'0'`, otherwise the digit at `i`. -/
def scinoFracLoop (n : List Nat) : Nat → Nat → List Char
  | _, 0 => []
  | i, k + 1 =>
    (if i > n.length - 1 then '0' else unval (n.getD i 0)) ::
      scinoFracLoop n (i + 1) k

/-- `BigNum::scino`: leading digit, then (when `sigfigs > 1`) a decimal point
and the fractional-digit loop, then `E` and the decimal rendering of
`length - 1`. -/
def scino (n : List Nat) (sigfigs : Nat) : String :=
  String.mk (unval (n.headD 0) ::
    ((if 1 < sigfigs then '.' :: scinoFracLoop n 1 (sigfigs - 1) else []) ++
      'E' :: (Nat.repr (n.length - 1)).data))

/-- The one-argument overload `scino(Num n)`: `sigfigs` defaults to 5. -/
def scinoDefault (n : List Nat) : String := scino n 5

/-! ## Values of digit lists -/

theorem valRev_append (xs ys : List Nat) :
    valRev (xs ++ ys) = valRev xs + 10 ^ xs.length * valRev ys := by
  induction xs with
  | nil => simp [valRev]
  | cons d xs ih =>
    rw [List.cons_append]
    show d + 10 * valRev (xs ++ ys) = d + 10 * valRev xs + 10 ^ (xs.length + 1) * valRev ys
    rw [ih, pow_succ]
    ring

theorem valRev_replicate_zero (n : Nat) : valRev (List.replicate n 0) = 0 := by
  induction n with
  | zero => rfl
  | succ n ih => simpa [List.replicate_succ, valRev] using ih

theorem valRev_lt {ds : List Nat} (h : ∀ d ∈ ds, d < 10) :
    valRev ds < 10 ^ ds.length := by
  induction ds with
  | nil => simp [valRev]
  | cons d ds ih =>
    have hd : d < 10 := h d (by simp)
    have hv := ih (fun e he => h e (by simp [he]))
    simp only [valRev, List.length_cons, pow_succ]
    omega

theorem le_valRev_getLast {ds : List Nat} {u : Nat} (h : ds.getLast? = some u)
    (hu : u ≠ 0) : 10 ^ (ds.length - 1) ≤ valRev ds := by
  induction ds with
  | nil => simp at h
  | cons d ds ih =>
    cases ds with
    | nil =>
      simp only [List.getLast?_singleton, Option.some.injEq] at h
      subst h
      simp only [valRev, List.length_singleton]
      omega
    | cons e ds' =>
      rw [List.getLast?_cons_cons] at h
      have hrec := ih h
      simp only [List.length_cons, Nat.add_sub_cancel] at hrec ⊢
      calc 10 ^ (ds'.length + 1) = 10 ^ ds'.length * 10 := pow_succ 10 _
        _ ≤ valRev (e :: ds') * 10 := by
            have : 10 ^ ds'.length ≤ valRev (e :: ds') := by
              simpa using hrec
            exact Nat.mul_le_mul_right 10 this
        _ ≤ d + 10 * valRev (e :: ds') := by omega
        _ = valRev (d :: e :: ds') := rfl

theorem getLast_ne_zero_of_le {ds : List Nat} (hne : ds ≠ [])
    (h10 : ∀ d ∈ ds, d < 10) (hge : 10 ^ (ds.length - 1) ≤ valRev ds) :
    ∃ u, ds.getLast? = some u ∧ u ≠ 0 := by
  rcases List.eq_nil_or_concat ds with rfl | ⟨L, b, rfl⟩
  · exact absurd rfl hne
  · refine ⟨b, by simp, ?_⟩
    rintro rfl
    rw [List.concat_eq_append, valRev_append] at hge
    have hL : valRev L < 10 ^ L.length :=
      valRev_lt (fun d hd => h10 d (by simp [List.concat_eq_append, hd]))
    simp only [List.concat_eq_append, List.length_append, List.length_singleton,
      Nat.add_sub_cancel, valRev] at hge
    omega

theorem valRev_eq_zero {ds : List Nat} (h : valRev ds = 0) : ∀ d ∈ ds, d = 0 := by
  induction ds with
  | nil => simp
  | cons d ds ih =>
    simp only [valRev] at h
    intro e he
    rcases List.mem_cons.mp he with rfl | he'
    · omega
    · exact ih (by omega) e he'

theorem valRev_inj : ∀ {as bs : List Nat}, as.length = bs.length →
    (∀ d ∈ as, d < 10) → (∀ d ∈ bs, d < 10) → valRev as = valRev bs → as = bs := by
  intro as
  induction as with
  | nil =>
    intro bs hl _ _ _
    exact (List.eq_nil_of_length_eq_zero hl.symm).symm
  | cons a as ih =>
    intro bs hl ha hb hv
    cases bs with
    | nil => simp at hl
    | cons b bs =>
      have ha' : a < 10 := ha a (by simp)
      have hb' : b < 10 := hb b (by simp)
      simp only [valRev] at hv
      have hab : a = b ∧ valRev as = valRev bs := by omega
      have := ih (by simpa using hl) (fun d hd => ha d (by simp [hd]))
        (fun d hd => hb d (by simp [hd])) hab.2
      rw [hab.1, this]

theorem val_lt {l : List Nat} (h : ∀ d ∈ l, d < 10) : val l < 10 ^ l.length := by
  have := @valRev_lt l.reverse (fun d hd => h d (List.mem_reverse.mp hd))
  simpa [val] using this

theorem le_val_head {l : List Nat} {u : Nat} (h : l.head? = some u) (hu : u ≠ 0) :
    10 ^ (l.length - 1) ≤ val l := by
  have := @le_valRev_getLast l.reverse u (by rw [List.getLast?_reverse]; exact h) hu
  simpa [val] using this

theorem head_ne_zero_of_le {l : List Nat} (hne : l ≠ [])
    (h10 : ∀ d ∈ l, d < 10) (hge : 10 ^ (l.length - 1) ≤ val l) :
    ∃ u, l.head? = some u ∧ u ≠ 0 := by
  have hrne : l.reverse ≠ [] := by simpa using hne
  obtain ⟨u, hu, hu0⟩ := getLast_ne_zero_of_le hrne
    (fun d hd => h10 d (List.mem_reverse.mp hd)) (by simpa [val] using hge)
  exact ⟨u, by rwa [List.getLast?_reverse] at hu, hu0⟩

theorem canonical_of_le_val {l : List Nat} (hne : l ≠ [])
    (h10 : ∀ d ∈ l, d < 10) (hge : 10 ^ (l.length - 1) ≤ val l) : Canonical l := by
  refine ⟨hne, h10, ?_⟩
  intro h0
  obtain ⟨u, hu, hu0⟩ := head_ne_zero_of_le hne h10 hge
  rw [h0] at hu
  exact absurd (Option.some.injEq _ _ ▸ hu).symm hu0

theorem canonical_pos {l : List Nat} (hc : Canonical l) (h0 : l ≠ [0]) :
    ∃ u, l.head? = some u ∧ u ≠ 0 ∧ 10 ^ (l.length - 1) ≤ val l := by
  obtain ⟨hne, h10, hz⟩ := hc
  cases hl : l.head? with
  | none => exact absurd (List.head?_eq_none_iff.mp hl) hne
  | some u =>
    have hu : u ≠ 0 := fun h => h0 (hz (h ▸ hl))
    exact ⟨u, rfl, hu, le_val_head hl hu⟩

theorem canonical_val_zero {l : List Nat} (hc : Canonical l) (h : val l = 0) :
    l = [0] := by
  obtain ⟨hne, _, hz⟩ := hc
  have hall : ∀ d ∈ l, d = 0 := by
    intro d hd
    exact @valRev_eq_zero l.reverse h d (List.mem_reverse.mpr hd)
  cases l with
  | nil => exact absurd rfl hne
  | cons d t => exact hz (by simp [hall d (by simp)])

theorem canonical_inj {a b : List Nat} (ha : Canonical a) (hb : Canonical b)
    (h : val a = val b) : a = b := by
  by_cases ha0 : a = [0]
  · subst ha0
    exact (canonical_val_zero hb (by simpa [val, valRev] using h.symm)).symm
  · have hb0 : b ≠ [0] := by
      rintro rfl
      exact ha0 (canonical_val_zero ha (by simpa [val, valRev] using h))
    obtain ⟨u, _, _, hga⟩ := canonical_pos ha ha0
    obtain ⟨v, _, _, hgb⟩ := canonical_pos hb hb0
    have hlta : val a < 10 ^ a.length := val_lt ha.2.1
    have hltb : val b < 10 ^ b.length := val_lt hb.2.1
    have hane : a ≠ [] := ha.1
    have hbne : b ≠ [] := hb.1
    have hlen : a.length = b.length := by
      by_contra hne
      rcases Nat.lt_or_ge a.length b.length with hlt | hge
      · have h1 : a.length ≤ b.length - 1 := by omega
        have : (10 : ℕ) ^ a.length ≤ 10 ^ (b.length - 1) :=
          Nat.pow_le_pow_right (by omega) h1
        omega
      · have hlt : b.length < a.length := by omega
        have h1 : b.length ≤ a.length - 1 := by omega
        have : (10 : ℕ) ^ b.length ≤ 10 ^ (a.length - 1) :=
          Nat.pow_le_pow_right (by omega) h1
        omega
    have := @valRev_inj a.reverse b.reverse (by simpa using hlen)
      (fun d hd => ha.2.1 d (List.mem_reverse.mp hd))
      (fun d hd => hb.2.1 d (List.mem_reverse.mp hd)) h
    have := congrArg List.reverse this
    simpa using this

/-! ## Addition -/

theorem getLast?_cons_ne {a : Nat} {l : List Nat} (h : l ≠ []) :
    (a :: l).getLast? = l.getLast? := by
  cases l with
  | nil => exact absurd rfl h
  | cons b t => exact List.getLast?_cons_cons

/-- One carry-loop step: consing a digit onto a partial sum preserves the
"length is the running maximum, or one more with a final carry digit 1"
shape. -/
theorem addStep_len {dig : Nat} {rest : List Nat} {L : Nat}
    (h : rest.length = L ∨ (rest.length = L + 1 ∧ rest.getLast? = some 1)) :
    (dig :: rest).length = L + 1 ∨
      ((dig :: rest).length = L + 1 + 1 ∧ (dig :: rest).getLast? = some 1) := by
  rcases h with h | ⟨h1, h2⟩
  · left; simp [h]
  · right
    have hne : rest ≠ [] := by
      intro he; rw [he] at h1; simp at h1
    exact ⟨by simp [h1], by rw [getLast?_cons_ne hne]; exact h2⟩

/-- The exhausted-operand tail of the carry loop: it adds the pending carry,
keeps the digits decimal, and keeps the length except when a final carry
appends the digit `1`. -/
theorem carryRev_spec : ∀ (ys : List Nat) (c : Nat), c ≤ 1 → (∀ d ∈ ys, d < 10) →
    valRev (carryRev ys c) = valRev ys + c ∧
    (∀ d ∈ carryRev ys c, d < 10) ∧
    ((carryRev ys c).length = ys.length ∨
      ((carryRev ys c).length = ys.length + 1 ∧ (carryRev ys c).getLast? = some 1)) := by
  intro ys
  induction ys with
  | nil =>
    intro c hc _
    by_cases h : c = 0
    · subst h
      exact ⟨by simp [carryRev, valRev], by simp [carryRev], Or.inl (by simp [carryRev])⟩
    · have h1 : c = 1 := by omega
      subst h1
      exact ⟨by simp [carryRev, valRev], by simp [carryRev],
        Or.inr ⟨by simp [carryRev], by simp [carryRev]⟩⟩
  | cons y ys ih =>
    intro c hc hy
    have hy0 : y < 10 := hy y (by simp)
    by_cases h : 10 ≤ y + c
    · obtain ⟨ihv, ihd, ihl⟩ := ih 1 (by omega) (fun d hd => hy d (by simp [hd]))
      refine ⟨?_, ?_, ?_⟩
      · simp only [carryRev, if_pos h, valRev, ihv]
        omega
      · intro d hd
        simp only [carryRev, if_pos h] at hd
        rcases List.mem_cons.mp hd with rfl | hd'
        · omega
        · exact ihd d hd'
      · simp only [carryRev, if_pos h, List.length_cons]
        exact addStep_len ihl
    · obtain ⟨ihv, ihd, ihl⟩ := ih 0 (by omega) (fun d hd => hy d (by simp [hd]))
      refine ⟨?_, ?_, ?_⟩
      · simp only [carryRev, if_neg h, valRev, ihv]
        omega
      · intro d hd
        simp only [carryRev, if_neg h] at hd
        rcases List.mem_cons.mp hd with rfl | hd'
        · omega
        · exact ihd d hd'
      · simp only [carryRev, if_neg h, List.length_cons]
        exact addStep_len ihl

/-- Joint specification of the carry loop of `add`: it computes the exact sum
of the two operands and the carry, its output digits are decimal, and its
length is the longer operand's length, or one more when a final carry digit
`1` is appended. -/
theorem addRev_spec : ∀ (xs ys : List Nat) (c : Nat), c ≤ 1 →
    (∀ d ∈ xs, d < 10) → (∀ d ∈ ys, d < 10) →
    valRev (addRev xs ys c) = valRev xs + valRev ys + c ∧
    (∀ d ∈ addRev xs ys c, d < 10) ∧
    ((addRev xs ys c).length = max xs.length ys.length ∨
      ((addRev xs ys c).length = max xs.length ys.length + 1 ∧
        (addRev xs ys c).getLast? = some 1)) := by
  intro xs
  induction xs with
  | nil =>
    intro ys c hc _ hy
    obtain ⟨hv, hd, hl⟩ := carryRev_spec ys c hc hy
    exact ⟨by simpa [addRev, valRev] using hv, by simpa [addRev] using hd,
      by simpa [addRev, Nat.zero_max] using hl⟩
  | cons x xs ih =>
    intro ys c hc hx hy
    cases ys with
    | nil =>
      obtain ⟨hv, hd, hl⟩ := carryRev_spec (x :: xs) c hc hx
      exact ⟨by simpa [addRev, valRev] using hv, by simpa [addRev] using hd,
        by simpa [addRev, Nat.max_zero] using hl⟩
    | cons y ys =>
      have hx0 : x < 10 := hx x (by simp)
      have hy0 : y < 10 := hy y (by simp)
      by_cases h : 10 ≤ x + y + c
      · obtain ⟨ihv, ihd, ihl⟩ := ih ys 1 (by omega) (fun d hd => hx d (by simp [hd]))
          (fun d hd => hy d (by simp [hd]))
        refine ⟨?_, ?_, ?_⟩
        · simp only [addRev, if_pos h, valRev, ihv]
          omega
        · intro d hd
          simp only [addRev, if_pos h] at hd
          rcases List.mem_cons.mp hd with rfl | hd'
          · omega
          · exact ihd d hd'
        · simp only [addRev, if_pos h, List.length_cons, Nat.succ_max_succ]
          exact addStep_len ihl
      · obtain ⟨ihv, ihd, ihl⟩ := ih ys 0 (by omega) (fun d hd => hx d (by simp [hd]))
          (fun d hd => hy d (by simp [hd]))
        refine ⟨?_, ?_, ?_⟩
        · simp only [addRev, if_neg h, valRev, ihv]
          omega
        · intro d hd
          simp only [addRev, if_neg h] at hd
          rcases List.mem_cons.mp hd with rfl | hd'
          · omega
          · exact ihd d hd'
        · simp only [addRev, if_neg h, List.length_cons, Nat.succ_max_succ]
          exact addStep_len ihl

theorem addRev_commutes : ∀ (xs ys : List Nat) (c : Nat),
    addRev xs ys c = addRev ys xs c := by
  intro xs
  induction xs with
  | nil =>
    intro ys c
    cases ys with
    | nil => rfl
    | cons y t => rfl
  | cons x xs ih =>
    intro ys c
    cases ys with
    | nil => rfl
    | cons y t =>
      have h' : x + y + c = y + x + c := by omega
      by_cases h : 10 ≤ x + y + c
      · simp only [addRev]
        rw [if_pos h, if_pos (show 10 ≤ y + x + c by omega), h', ih]
      · simp only [addRev]
        rw [if_neg h, if_neg (show ¬ 10 ≤ y + x + c by omega), h', ih]

theorem add_eq (m n : List Nat) : add m n = (addRev m.reverse n.reverse 0).reverse := by
  unfold add
  split
  · rfl
  · rw [addRev_commutes]

theorem add_spec {m n : List Nat} (hm : ∀ d ∈ m, d < 10) (hn : ∀ d ∈ n, d < 10) :
    val (add m n) = val m + val n ∧
    (∀ d ∈ add m n, d < 10) ∧
    ((add m n).length = max m.length n.length ∨
      ((add m n).length = max m.length n.length + 1 ∧ (add m n).head? = some 1)) := by
  obtain ⟨hv, hd, hl⟩ := addRev_spec m.reverse n.reverse 0 (by omega)
    (fun d hd => hm d (List.mem_reverse.mp hd))
    (fun d hd => hn d (List.mem_reverse.mp hd))
  rw [add_eq]
  refine ⟨?_, ?_, ?_⟩
  · simpa [val] using hv
  · intro d hd'
    exact hd d (List.mem_reverse.mp hd')
  · simpa [List.head?_reverse] using hl

theorem add_commutes (m n : List Nat) : add m n = add n m := by
  rw [add_eq, add_eq, addRev_commutes]

theorem add_ne_nil {m n : List Nat} (hm : m ≠ []) (h10m : ∀ d ∈ m, d < 10)
    (h10n : ∀ d ∈ n, d < 10) : add m n ≠ [] := by
  obtain ⟨-, -, hl⟩ := add_spec h10m h10n
  have hml : 1 ≤ m.length := by
    cases m with
    | nil => exact absurd rfl hm
    | cons a t => simp
  intro he
  rw [he] at hl
  simp only [List.length_nil] at hl
  omega

theorem add_canonical {m n : List Nat} (hm : Canonical m) (hn : Canonical n) :
    Canonical (add m n) := by
  by_cases hz : m = [0] ∧ n = [0]
  · rw [hz.1, hz.2]
    decide
  · have hge : 10 ^ (max m.length n.length - 1) ≤ val m + val n := by
      rcases Nat.le_total n.length m.length with hle | hle
      · rw [Nat.max_eq_left hle]
        by_cases hm0 : m = [0]
        · have hn0 : n ≠ [0] := fun h => hz ⟨hm0, h⟩
          obtain ⟨u, _, _, hnv⟩ := canonical_pos hn hn0
          have hm1 : m.length = 1 := by rw [hm0]; rfl
          have hn1 : 1 ≤ n.length := by
            cases n with
            | nil => exact absurd rfl hn.1
            | cons a t => simp
          have hnl : n.length = 1 := by omega
          rw [hm1]
          simp only [Nat.sub_self, pow_zero]
          rw [hnl] at hnv
          simp only [Nat.sub_self, pow_zero] at hnv
          omega
        · obtain ⟨u, _, _, hmv⟩ := canonical_pos hm hm0
          omega
      · rw [Nat.max_eq_right hle]
        by_cases hn0 : n = [0]
        · have hm0 : m ≠ [0] := fun h => hz ⟨h, hn0⟩
          obtain ⟨u, _, _, hmv⟩ := canonical_pos hm hm0
          have hn1 : n.length = 1 := by rw [hn0]; rfl
          have hm1 : 1 ≤ m.length := by
            cases m with
            | nil => exact absurd rfl hm.1
            | cons a t => simp
          have hml : m.length = 1 := by omega
          rw [hn1]
          simp only [Nat.sub_self, pow_zero]
          rw [hml] at hmv
          simp only [Nat.sub_self, pow_zero] at hmv
          omega
        · obtain ⟨u, _, _, hnv⟩ := canonical_pos hn hn0
          omega
    obtain ⟨hv, hd, hl⟩ := add_spec hm.2.1 hn.2.1
    have hne : add m n ≠ [] := add_ne_nil hm.1 hm.2.1 hn.2.1
    rcases hl with hl | ⟨hl, hhead⟩
    · exact canonical_of_le_val hne hd (by rw [hl, hv]; exact hge)
    · refine ⟨hne, hd, ?_⟩
      intro h0
      rw [hhead] at h0
      simp at h0

/-- When the second operand has a nonzero leading digit and is at least as
long as the first, the sum is canonical: the leading digit either survives or
a carry digit `1` tops the result. -/
theorem add_canonical_dominant {p d : List Nat} (hp : ∀ e ∈ p, e < 10)
    (hd10 : ∀ e ∈ d, e < 10) {u : Nat} (hdh : d.head? = some u) (hu : u ≠ 0)
    (hlen : p.length ≤ d.length) : Canonical (add p d) := by
  have hdne : d ≠ [] := by
    intro h
    rw [h] at hdh
    simp at hdh
  have hge : 10 ^ (d.length - 1) ≤ val d := le_val_head hdh hu
  obtain ⟨hv, hdd, hl⟩ := add_spec hp hd10
  have hne : add p d ≠ [] := by
    obtain ⟨-, -, hl'⟩ := add_spec hp hd10
    have hdl : 1 ≤ d.length := by
      cases d with
      | nil => exact absurd rfl hdne
      | cons a t => simp
    intro he
    rw [he] at hl'
    simp only [List.length_nil] at hl'
    omega
  have hmax : max p.length d.length = d.length := Nat.max_eq_right hlen
  rcases hl with hl | ⟨hl, hhead⟩
  · exact canonical_of_le_val hne hdd (by rw [hl, hmax, hv]; omega)
  · refine ⟨hne, hdd, ?_⟩
    intro h0
    rw [hhead] at h0
    simp at h0

/-! ## Decrement -/

/-- The borrow scan on a least-significant-first digit list whose
most-significant digit is nonzero, in a string of more than one digit
(`longer = true`): it subtracts exactly one, keeps digits decimal, and the
result is empty (the `"1"` that the break drops) or keeps a nonzero
most-significant digit. -/
theorem decBorrow_true_spec : ∀ (ds : List Nat), (∀ d ∈ ds, d < 10) →
    ∀ u, ds.getLast? = some u → u ≠ 0 →
    valRev (decBorrow true ds) + 1 = valRev ds ∧
    (∀ d ∈ decBorrow true ds, d < 10) ∧
    (decBorrow true ds = [] ∨
      ∃ w, (decBorrow true ds).getLast? = some w ∧ w ≠ 0) ∧
    (decBorrow true ds = [] → ds = [1]) := by
  intro ds
  induction ds with
  | nil =>
    intro _ u hu _
    simp at hu
  | cons d ds ih =>
    intro h10 u hu hu0
    have hd0 : d < 10 := h10 d (by simp)
    cases ds with
    | nil =>
      simp only [List.getLast?_singleton, Option.some.injEq] at hu
      subst hu
      by_cases h1 : d = 1
      · subst h1
        have hout : decBorrow true [1] = [] := by simp [decBorrow]
        rw [hout]
        exact ⟨by simp [valRev], by simp, Or.inl rfl, fun _ => rfl⟩
      · have hout : decBorrow true [d] = [d - 1] := by simp [decBorrow, h1, hu0]
        rw [hout]
        refine ⟨?_, ?_, ?_, ?_⟩
        · simp only [valRev]
          omega
        · intro e he
          rcases List.mem_singleton.mp he with rfl
          omega
        · exact Or.inr ⟨d - 1, by simp, by omega⟩
        · intro he
          simp at he
    | cons e ds' =>
      rw [List.getLast?_cons_cons] at hu
      by_cases hd : d = 0
      · subst hd
        have hout : decBorrow true (0 :: e :: ds') = 9 :: decBorrow true (e :: ds') := by
          simp [decBorrow]
        obtain ⟨ihv, ihd, ihl, ihe⟩ := ih (fun x hx => h10 x (by simp [hx])) u hu hu0
        rw [hout]
        refine ⟨?_, ?_, ?_, ?_⟩
        · have h1 : valRev (9 :: decBorrow true (e :: ds')) =
              9 + 10 * valRev (decBorrow true (e :: ds')) := rfl
          have h2 : valRev (0 :: e :: ds') = 0 + 10 * valRev (e :: ds') := rfl
          rw [h1, h2]
          omega
        · intro x hx
          rcases List.mem_cons.mp hx with rfl | hx'
          · omega
          · exact ihd x hx'
        · right
          rcases ihl with hnil | ⟨w, hw, hw0⟩
          · exact ⟨9, by simp [hnil], by omega⟩
          · have hne : decBorrow true (e :: ds') ≠ [] := by
              intro h
              rw [h] at hw
              simp at hw
            exact ⟨w, by rw [getLast?_cons_ne hne]; exact hw, hw0⟩
        · intro h
          simp at h
      · have hout : decBorrow true (d :: e :: ds') = (d - 1) :: e :: ds' := by
          simp [decBorrow, hd]
        rw [hout]
        refine ⟨?_, ?_, ?_, ?_⟩
        · simp only [valRev]
          omega
        · intro x hx
          rcases List.mem_cons.mp hx with rfl | hx'
          · omega
          · exact h10 x (by simp [hx'])
        · exact Or.inr ⟨u, by rw [getLast?_cons_ne (by simp)]; exact hu, hu0⟩
        · intro h
          simp at h

/-- Decrementing a canonical nonzero value yields a canonical value exactly
one smaller. -/
theorem decrement_spec {n : List Nat} (hc : Canonical n) (h0 : n ≠ [0]) :
    val (decrement n) + 1 = val n ∧ Canonical (decrement n) := by
  obtain ⟨u, hh, hu, -⟩ := canonical_pos hc h0
  by_cases hlen : 1 < n.length
  · have hflag : decide (1 < n.length) = true := by simp [hlen]
    have hrl : n.reverse.getLast? = some u := by rw [List.getLast?_reverse]; exact hh
    obtain ⟨hv, hd, hl, he⟩ := decBorrow_true_spec n.reverse
      (fun d hd => hc.2.1 d (List.mem_reverse.mp hd)) u hrl hu
    have hne : decBorrow true n.reverse ≠ [] := by
      intro h
      have := he h
      have : n = [1] := by
        have := congrArg List.reverse this
        simpa using this
      rw [this] at hlen
      simp at hlen
    constructor
    · show val ((decBorrow (decide (1 < n.length)) n.reverse).reverse) + 1 = val n
      rw [hflag]
      simpa [val] using hv
    · rcases hl with hnil | ⟨w, hw, hw0⟩
      · exact absurd hnil hne
      · refine ⟨?_, ?_, ?_⟩
        · show (decBorrow (decide (1 < n.length)) n.reverse).reverse ≠ []
          rw [hflag]
          simpa using hne
        · intro d hd'
          show d < 10
          revert hd'
          show d ∈ (decBorrow (decide (1 < n.length)) n.reverse).reverse → d < 10
          rw [hflag]
          intro hd'
          exact hd d (List.mem_reverse.mp hd')
        · show (decrement n).head? = some 0 → decrement n = [0]
          unfold decrement
          rw [hflag, List.head?_reverse, hw]
          intro hcontra
          exact absurd (Option.some.inj hcontra) hw0
  · cases n with
    | nil => exact absurd rfl hc.1
    | cons d t =>
      cases t with
      | cons e t' => simp at hlen
      | nil =>
        simp only [List.head?_cons, Option.some.injEq] at hh
        subst hh
        have hd10 : d < 10 := hc.2.1 d (by simp)
        have hflag : decide (1 < ([d] : List Nat).length) = false := by simp
        have hcond : ¬(([] : List Nat) = [] ∧ d = 1 ∧ false = true) := by simp
        have hout : decrement [d] = [d - 1] := by
          unfold decrement
          rw [hflag]
          simp [decBorrow, hcond, hu]
        rw [hout]
        refine ⟨?_, ?_, ?_, ?_⟩
        · simp only [val, valRev, List.reverse_singleton]
          omega
        · simp
        · intro e he
          rcases List.mem_singleton.mp he with rfl
          omega
        · intro h0'
          simp only [List.head?_cons, Option.some.injEq] at h0'
          rw [h0']

/-! ## Comparison -/

theorem val_cons (d : Nat) (l : List Nat) :
    val (d :: l) = 10 ^ l.length * d + val l := by
  simp only [val, List.reverse_cons, valRev_append, List.length_reverse, valRev]
  ring

theorem compareLex_spec : ∀ (as bs : List Nat), as.length = bs.length →
    (∀ d ∈ as, d < 10) → (∀ d ∈ bs, d < 10) →
    (val as = val bs → compareLex as bs = 0) ∧
    (val bs < val as → compareLex as bs = 1) ∧
    (val as < val bs → compareLex as bs = -1) := by
  intro as
  induction as with
  | nil =>
    intro bs hl _ _
    have : bs = [] := List.eq_nil_of_length_eq_zero hl.symm
    subst this
    exact ⟨fun _ => rfl, fun h => absurd h (by omega), fun h => absurd h (by omega)⟩
  | cons a as ih =>
    intro bs hl ha hb
    cases bs with
    | nil => simp at hl
    | cons b bs =>
      have hl' : as.length = bs.length := by simpa using hl
      have ha0 : a < 10 := ha a (by simp)
      have hb0 : b < 10 := hb b (by simp)
      have hva : val as < 10 ^ as.length := val_lt (fun d hd => ha d (by simp [hd]))
      have hvb : val bs < 10 ^ bs.length := val_lt (fun d hd => hb d (by simp [hd]))
      rw [val_cons, val_cons, hl']
      rcases Nat.lt_trichotomy a b with hab | hab | hab
      · have hout : compareLex (a :: as) (b :: bs) = -1 := by
          simp only [compareLex, List.headD_cons, List.tail_cons]
          rw [if_neg (by omega), if_pos hab]
        have hlt : 10 ^ bs.length * a + val as < 10 ^ bs.length * b + val bs := by
          have h1 : 10 ^ bs.length * a + 10 ^ bs.length ≤ 10 ^ bs.length * b := by
            have : a + 1 ≤ b := hab
            calc 10 ^ bs.length * a + 10 ^ bs.length = 10 ^ bs.length * (a + 1) := by ring
              _ ≤ 10 ^ bs.length * b := Nat.mul_le_mul_left _ this
          rw [hl'] at hva
          omega
        exact ⟨fun h => absurd h (by omega), fun h => absurd h (by omega), fun _ => hout⟩
      · subst hab
        obtain ⟨ih0, ih1, ih2⟩ := ih bs hl' (fun d hd => ha d (by simp [hd]))
          (fun d hd => hb d (by simp [hd]))
        have hout : compareLex (a :: as) (a :: bs) = compareLex as bs := by
          simp only [compareLex, List.headD_cons, List.tail_cons]
          rw [if_neg (by omega), if_neg (by omega)]
        rw [hout]
        exact ⟨fun h => ih0 (by omega), fun h => ih1 (by omega), fun h => ih2 (by omega)⟩
      · have hout : compareLex (a :: as) (b :: bs) = 1 := by
          simp only [compareLex, List.headD_cons, List.tail_cons]
          rw [if_pos hab]
        have hlt : 10 ^ bs.length * b + val bs < 10 ^ bs.length * a + val as := by
          have h1 : 10 ^ bs.length * b + 10 ^ bs.length ≤ 10 ^ bs.length * a := by
            have : b + 1 ≤ a := hab
            calc 10 ^ bs.length * b + 10 ^ bs.length = 10 ^ bs.length * (b + 1) := by ring
              _ ≤ 10 ^ bs.length * a := Nat.mul_le_mul_left _ this
          omega
        exact ⟨fun h => absurd h (by omega), fun _ => hout, fun h => absurd h (by omega)⟩

theorem val_lt_of_len_lt {x y : List Nat} (hx : Canonical x) (hy : Canonical y)
    (h : x.length < y.length) : val x < val y := by
  have hy0 : y ≠ [0] := by
    rintro rfl
    have : 1 ≤ x.length := by
      cases x with
      | nil => exact absurd rfl hx.1
      | cons a t => simp
    simp only [List.length_singleton] at h
    omega
  obtain ⟨u, _, _, hgy⟩ := canonical_pos hy hy0
  have hvx : val x < 10 ^ x.length := val_lt hx.2.1
  have hmono : (10 : ℕ) ^ x.length ≤ 10 ^ (y.length - 1) :=
    Nat.pow_le_pow_right (by omega) (by omega)
  omega

/-! ## Multiplication -/

theorem head?_append_left {l r : List Nat} (h : l ≠ []) :
    (l ++ r).head? = l.head? := by
  cases l with
  | nil => exact absurd rfl h
  | cons a t => rfl

/-- The inner partial-product loop: exact single-digit product with carry,
decimal output digits, and length equal to the operand's or one more when a
final carry digit is prepended. -/
theorem mulDigitRev_spec : ∀ (xs : List Nat) (d c : Nat), (∀ e ∈ xs, e < 10) →
    d < 10 → c ≤ 8 →
    valRev (mulDigitRev xs d c) = valRev xs * d + c ∧
    (∀ e ∈ mulDigitRev xs d c, e < 10) ∧
    xs.length ≤ (mulDigitRev xs d c).length ∧
    (mulDigitRev xs d c).length ≤ xs.length + 1 := by
  intro xs
  induction xs with
  | nil =>
    intro d c _ _ hc
    by_cases h : 0 < c
    · have hout : mulDigitRev [] d c = [c] := by simp [mulDigitRev, h]
      rw [hout]
      exact ⟨by simp [valRev], by intro e he; rcases List.mem_singleton.mp he with rfl; omega,
        by simp, by simp⟩
    · have hc0 : c = 0 := by omega
      subst hc0
      have hout : mulDigitRev [] d 0 = [] := by simp [mulDigitRev]
      rw [hout]
      exact ⟨by simp [valRev], by simp, by simp, by simp⟩
  | cons x xs ih =>
    intro d c hx hd hc
    have hx0 : x < 10 := hx x (by simp)
    have hexp : valRev (x :: xs) * d = x * d + 10 * (valRev xs * d) := by
      show (x + 10 * valRev xs) * d = x * d + 10 * (valRev xs * d)
      ring
    by_cases h : 10 ≤ x * d + c
    · have hbound : x * d + c ≤ 89 := by
        have : x * d ≤ 9 * 9 := Nat.mul_le_mul (by omega) (by omega)
        omega
      obtain ⟨ihv, ihd, ihl1, ihl2⟩ := ih d ((x * d + c) / 10)
        (fun e he => hx e (by simp [he])) hd (by omega)
      have hout : mulDigitRev (x :: xs) d c =
          (x * d + c - (x * d + c) / 10 * 10) :: mulDigitRev xs d ((x * d + c) / 10) := by
        simp [mulDigitRev, h]
      rw [hout]
      refine ⟨?_, ?_, ?_, ?_⟩
      · show (x * d + c - (x * d + c) / 10 * 10) +
            10 * valRev (mulDigitRev xs d ((x * d + c) / 10)) = valRev (x :: xs) * d + c
        rw [ihv, hexp]
        omega
      · intro e he
        rcases List.mem_cons.mp he with rfl | he'
        · omega
        · exact ihd e he'
      · simpa using ihl1
      · simpa using ihl2
    · obtain ⟨ihv, ihd, ihl1, ihl2⟩ := ih d 0 (fun e he => hx e (by simp [he])) hd (by omega)
      have hout : mulDigitRev (x :: xs) d c = (x * d + c) :: mulDigitRev xs d 0 := by
        simp [mulDigitRev, h]
      rw [hout]
      refine ⟨?_, ?_, ?_, ?_⟩
      · show (x * d + c) + 10 * valRev (mulDigitRev xs d 0) = valRev (x :: xs) * d + c
        rw [ihv, hexp]
        omega
      · intro e he
        rcases List.mem_cons.mp he with rfl | he'
        · omega
        · exact ihd e he'
      · simpa using ihl1
      · simpa using ihl2

/-- When both the most-significant digit of the operand and the multiplier
digit are nonzero, the partial product keeps a nonzero most-significant
digit. -/
theorem mulDigitRev_getLast : ∀ (xs : List Nat) (d c u : Nat), (∀ e ∈ xs, e < 10) →
    d < 10 → c ≤ 8 → xs.getLast? = some u → u ≠ 0 → d ≠ 0 →
    ∃ w, (mulDigitRev xs d c).getLast? = some w ∧ w ≠ 0 := by
  intro xs
  induction xs with
  | nil =>
    intro d c u _ _ _ hu _ _
    simp at hu
  | cons x xs ih =>
    intro d c u h10 hd hc hu hu0 hd0
    cases xs with
    | nil =>
      simp only [List.getLast?_singleton, Option.some.injEq] at hu
      subst hu
      have hx1 : 1 ≤ x := by omega
      have hd1 : 1 ≤ d := by omega
      have hp1 : 1 ≤ x * d + c := by
        have := Nat.mul_le_mul hx1 hd1
        omega
      by_cases h : 10 ≤ x * d + c
      · have hcar : 0 < (x * d + c) / 10 := Nat.div_pos h (by omega)
        have hout : mulDigitRev [x] d c =
            [x * d + c - (x * d + c) / 10 * 10, (x * d + c) / 10] := by
          simp [mulDigitRev, h, hcar]
        rw [hout]
        exact ⟨(x * d + c) / 10, by rw [getLast?_cons_ne (by simp)]; simp, by omega⟩
      · have hout : mulDigitRev [x] d c = [x * d + c] := by
          simp [mulDigitRev, h]
        rw [hout]
        exact ⟨x * d + c, by simp, by omega⟩
    | cons e xs' =>
      rw [List.getLast?_cons_cons] at hu
      have hx0 : x < 10 := h10 x (by simp)
      have h10' : ∀ f ∈ e :: xs', f < 10 := fun f hf => h10 f (by simp [hf])
      have hbound : x * d + c ≤ 89 := by
        have : x * d ≤ 9 * 9 := Nat.mul_le_mul (by omega) (by omega)
        omega
      have hrecne : ∀ c', c' ≤ 8 → mulDigitRev (e :: xs') d c' ≠ [] := by
        intro c' hc' hnil
        obtain ⟨-, -, hl1, -⟩ := mulDigitRev_spec (e :: xs') d c' h10' hd hc'
        rw [hnil] at hl1
        simp at hl1
      by_cases h : 10 ≤ x * d + c
      · obtain ⟨w, hw, hw0⟩ := ih d ((x * d + c) / 10) u h10' hd (by omega) hu hu0 hd0
        have hout : mulDigitRev (x :: e :: xs') d c =
            (x * d + c - (x * d + c) / 10 * 10) :: mulDigitRev (e :: xs') d ((x * d + c) / 10) := by
          simp [mulDigitRev, h]
        rw [hout]
        exact ⟨w, by rw [getLast?_cons_ne (hrecne ((x * d + c) / 10) (by omega))]; exact hw, hw0⟩
      · obtain ⟨w, hw, hw0⟩ := ih d 0 u h10' hd (by omega) hu hu0 hd0
        have hout : mulDigitRev (x :: e :: xs') d c =
            (x * d + c) :: mulDigitRev (e :: xs') d 0 := by
          simp [mulDigitRev, h]
        rw [hout]
        exact ⟨w, by rw [getLast?_cons_ne (hrecne 0 (by omega))]; exact hw, hw0⟩

/-- When the partial product is one digit longer than the operand, its
most-significant digit is the final nonzero carry. -/
theorem mulDigitRev_len_succ : ∀ (xs : List Nat) (d c : Nat), (∀ e ∈ xs, e < 10) →
    d < 10 → c ≤ 8 → (mulDigitRev xs d c).length = xs.length + 1 →
    ∃ w, (mulDigitRev xs d c).getLast? = some w ∧ w ≠ 0 := by
  intro xs
  induction xs with
  | nil =>
    intro d c _ _ _ hl
    by_cases h : 0 < c
    · have hout : mulDigitRev [] d c = [c] := by simp [mulDigitRev, h]
      rw [hout]
      exact ⟨c, by simp, by omega⟩
    · have hout : mulDigitRev [] d c = [] := by simp [mulDigitRev, h]
      rw [hout] at hl
      simp at hl
  | cons x xs ih =>
    intro d c h10 hd hc hl
    have hx0 : x < 10 := h10 x (by simp)
    have h10' : ∀ f ∈ xs, f < 10 := fun f hf => h10 f (by simp [hf])
    have hbound : x * d + c ≤ 89 := by
      have : x * d ≤ 9 * 9 := Nat.mul_le_mul (by omega) (by omega)
      omega
    by_cases h : 10 ≤ x * d + c
    · have hout : mulDigitRev (x :: xs) d c =
          (x * d + c - (x * d + c) / 10 * 10) :: mulDigitRev xs d ((x * d + c) / 10) := by
        simp [mulDigitRev, h]
      rw [hout] at hl ⊢
      simp only [List.length_cons, List.length_cons] at hl
      obtain ⟨w, hw, hw0⟩ := ih d ((x * d + c) / 10) h10' hd (by omega) (by omega)
      have hne : mulDigitRev xs d ((x * d + c) / 10) ≠ [] := by
        intro hnil
        rw [hnil] at hw
        simp at hw
      exact ⟨w, by rw [getLast?_cons_ne hne]; exact hw, hw0⟩
    · have hout : mulDigitRev (x :: xs) d c = (x * d + c) :: mulDigitRev xs d 0 := by
        simp [mulDigitRev, h]
      rw [hout] at hl ⊢
      simp only [List.length_cons, List.length_cons] at hl
      obtain ⟨w, hw, hw0⟩ := ih d 0 h10' hd (by omega) (by omega)
      have hne : mulDigitRev xs d 0 ≠ [] := by
        intro hnil
        rw [hnil] at hw
        simp at hw
      exact ⟨w, by rw [getLast?_cons_ne hne]; exact hw, hw0⟩

/-- Master invariant of the outer multiplication loop.  Entering with shift
`z` and a running product no longer than `xr.length + z`, the loop adds
`x * (remaining digits of y) * 10 ^ z` to the product value, keeps digits
decimal and the product non-empty, bounds the final length by
`xr.length + z + ys.length` from above and one less from below, exceeds the
lower bound only with a value of at least `10 ^ (lower bound)`, and returns a
canonical value whenever both most-significant digits are nonzero. -/
theorem mulLoop_spec (xr : List Nat) (hx10 : ∀ e ∈ xr, e < 10) :
    ∀ (ys : List Nat) (z : Nat) (p : List Nat),
    (∀ e ∈ ys, e < 10) → (∀ e ∈ p, e < 10) → p ≠ [] →
    p.length ≤ xr.length + z →
    val (mulLoop xr ys z p) = val p + valRev xr * valRev ys * 10 ^ z ∧
    (∀ e ∈ mulLoop xr ys z p, e < 10) ∧
    mulLoop xr ys z p ≠ [] ∧
    (mulLoop xr ys z p).length ≤ xr.length + z + ys.length ∧
    (ys ≠ [] → xr.length + z + ys.length - 1 ≤ (mulLoop xr ys z p).length) ∧
    (ys ≠ [] → (mulLoop xr ys z p).length ≤ xr.length + z + ys.length - 1 ∨
      10 ^ (xr.length + z + ys.length - 1) ≤ val (mulLoop xr ys z p)) ∧
    (∀ u, ys.getLast? = some u → u ≠ 0 →
      ∀ v, xr.getLast? = some v → v ≠ 0 → Canonical (mulLoop xr ys z p)) := by
  intro ys
  induction ys with
  | nil =>
    intro z p _ hp10 hpne hplen
    have hout : mulLoop xr [] z p = p := rfl
    rw [hout]
    refine ⟨by simp [valRev], hp10, hpne, by simpa using hplen, by simp, by simp, ?_⟩
    intro u hu
    simp at hu
  | cons yd ys' ih =>
    intro z p hy10 hp10 hpne hplen
    have hyd : yd < 10 := hy10 yd (by simp)
    have hstep : mulLoop xr (yd :: ys') z p =
        mulLoop xr ys' (z + 1)
          (add p ((mulDigitRev xr yd 0).reverse ++ List.replicate z 0)) := rfl
    rw [hstep]
    set D := (mulDigitRev xr yd 0).reverse ++ List.replicate z 0 with hD
    obtain ⟨hmv, hmd, hml1, hml2⟩ := mulDigitRev_spec xr yd 0 hx10 hyd (by omega)
    have hD10 : ∀ e ∈ D, e < 10 := by
      intro e he
      rw [hD] at he
      rcases List.mem_append.mp he with h1 | h2
      · exact hmd e (List.mem_reverse.mp h1)
      · have := List.eq_of_mem_replicate h2
        omega
    have hDlen : D.length = (mulDigitRev xr yd 0).length + z := by
      rw [hD]; simp
    have hDrev : D.reverse = List.replicate z 0 ++ mulDigitRev xr yd 0 := by
      rw [hD, List.reverse_append, List.reverse_reverse, List.reverse_replicate]
    have hDval2 : val D = 10 ^ z * valRev (mulDigitRev xr yd 0) := by
      rw [val, hDrev, valRev_append, valRev_replicate_zero, List.length_replicate]
      ring
    have hDval : val D = 10 ^ z * (valRev xr * yd) := by
      rw [hDval2, hmv]
      ring
    obtain ⟨hav, had, hal⟩ := add_spec hp10 hD10
    have hp'ne : add p D ≠ [] := add_ne_nil hpne hp10 hD10
    have hp'len : (add p D).length ≤ xr.length + (z + 1) := by
      rcases hal with hl | ⟨hl, hh⟩
      · rw [hl]
        exact Nat.max_le.mpr ⟨by omega, by omega⟩
      · have hvp : val p < 10 ^ (xr.length + z) :=
          lt_of_lt_of_le (val_lt hp10) (Nat.pow_le_pow_right (by omega) hplen)
        have hW : valRev xr < 10 ^ xr.length := valRev_lt hx10
        have hDle : val D ≤ 9 * 10 ^ (xr.length + z) := by
          rw [hDval]
          calc 10 ^ z * (valRev xr * yd) ≤ 10 ^ z * (10 ^ xr.length * 9) := by
                apply Nat.mul_le_mul_left
                calc valRev xr * yd ≤ valRev xr * 9 := Nat.mul_le_mul_left _ (by omega)
                  _ ≤ 10 ^ xr.length * 9 := Nat.mul_le_mul_right _ (by omega)
            _ = 9 * 10 ^ (xr.length + z) := by rw [pow_add]; ring
        have hcarryval : 10 ^ (max p.length D.length) ≤ val (add p D) := by
          have h1 := le_val_head hh (by omega)
          rw [hl] at h1
          simpa using h1
        have hub : val (add p D) < 10 * 10 ^ (xr.length + z) := by
          rw [hav]; omega
        have hmaxle : max p.length D.length ≤ xr.length + z := by
          by_contra hcon
          have h1 : xr.length + z + 1 ≤ max p.length D.length := by omega
          have h2 : (10 : ℕ) ^ (xr.length + z + 1) ≤ 10 ^ max p.length D.length :=
            Nat.pow_le_pow_right (by omega) h1
          rw [pow_succ] at h2
          omega
        rw [hl]
        omega
    obtain ⟨ih1, ih2, ih3, ih4, ih5, ih6, ih7⟩ := ih (z + 1) (add p D)
      (fun e he => hy10 e (by simp [he])) had hp'ne hp'len
    refine ⟨?_, ih2, ih3, ?_, ?_, ?_, ?_⟩
    · rw [ih1, hav, hDval]
      have hc : valRev (yd :: ys') = yd + 10 * valRev ys' := rfl
      rw [hc, pow_succ]
      ring
    · simp only [List.length_cons]
      omega
    · intro _
      by_cases hys' : ys' = []
      · subst hys'
        have hr : mulLoop xr [] (z + 1) (add p D) = add p D := rfl
        rw [hr]
        have h1 : max p.length D.length ≤ (add p D).length := by
          rcases hal with hl | ⟨hl, -⟩ <;> omega
        have h2 : D.length ≤ max p.length D.length := Nat.le_max_right _ _
        simp only [List.length_cons, List.length_nil]
        omega
      · have h1 := ih5 hys'
        simp only [List.length_cons]
        omega
    · intro _
      simp only [List.length_cons]
      by_cases hys' : ys' = []
      · subst hys'
        have hr : mulLoop xr [] (z + 1) (add p D) = add p D := rfl
        rw [hr]
        simp only [List.length_nil]
        by_cases hmlen : (mulDigitRev xr yd 0).length = xr.length + 1
        · right
          obtain ⟨w, hw, hw0⟩ := mulDigitRev_len_succ xr yd 0 hx10 hyd (by omega) hmlen
          have hge : 10 ^ xr.length ≤ valRev (mulDigitRev xr yd 0) := by
            have h1 := le_valRev_getLast hw hw0
            rw [hmlen] at h1
            simpa using h1
          have hgoal : 10 ^ (xr.length + z) ≤ 10 ^ z * valRev (mulDigitRev xr yd 0) := by
            calc 10 ^ (xr.length + z) = 10 ^ z * 10 ^ xr.length := by rw [pow_add]; ring
              _ ≤ 10 ^ z * valRev (mulDigitRev xr yd 0) := Nat.mul_le_mul_left _ hge
          have hsub : xr.length + z + (0 + 1) - 1 = xr.length + z := by omega
          rw [hsub, hav, hDval2]
          omega
        · have hmlen' : (mulDigitRev xr yd 0).length = xr.length := by omega
          rcases hal with hl | ⟨hl, hh⟩
          · left
            have hmax : max p.length D.length ≤ xr.length + z :=
              Nat.max_le.mpr ⟨hplen, by omega⟩
            omega
          · right
            have h1 := le_val_head hh (by omega)
            rw [hl] at h1
            have h2 : D.length ≤ max p.length D.length := Nat.le_max_right _ _
            have h3 : (10 : ℕ) ^ (xr.length + z) ≤ 10 ^ (max p.length D.length) :=
              Nat.pow_le_pow_right (by omega) (by omega)
            have hsub : xr.length + z + (0 + 1) - 1 = xr.length + z := by omega
            rw [hsub]
            have h4 : 10 ^ (max p.length D.length) ≤ val (add p D) := by
              simpa using h1
            omega
      · have h1 := ih6 hys'
        rcases h1 with h1 | h1
        · left
          omega
        · right
          have hexp : xr.length + (z + 1) + ys'.length - 1 =
              xr.length + z + (ys'.length + 1) - 1 := by omega
          rw [← hexp]
          exact h1
    · intro u hu hu0 v hv hv0
      by_cases hys' : ys' = []
      · subst hys'
        simp only [List.getLast?_singleton, Option.some.injEq] at hu
        subst hu
        have hr : mulLoop xr [] (z + 1) (add p D) = add p D := rfl
        rw [hr]
        obtain ⟨w, hw, hw0⟩ := mulDigitRev_getLast xr yd 0 v hx10 hyd (by omega) hv hv0 hu0
        have hmne : mulDigitRev xr yd 0 ≠ [] := by
          intro h
          rw [h] at hw
          simp at hw
        have hDhead : D.head? = some w := by
          rw [hD, head?_append_left (by simpa using hmne), List.head?_reverse]
          exact hw
        exact add_canonical_dominant hp10 hD10 hDhead hw0 (by omega)
      · exact ih7 u (by rw [getLast?_cons_ne hys'] at hu; exact hu) hu0 v hv hv0

/-- The general multiplication path (no `"0"` operand): exact value,
canonical result, and a digit count of `n + m` or `n + m - 1`. -/
theorem multiply_core {x y : List Nat} (hx : Canonical x) (hy : Canonical y)
    (hx0 : x ≠ [0]) (hy0 : y ≠ [0]) :
    val (mulLoop x.reverse y.reverse 0 [0]) = val x * val y ∧
    Canonical (mulLoop x.reverse y.reverse 0 [0]) ∧
    x.length + y.length - 1 ≤ (mulLoop x.reverse y.reverse 0 [0]).length ∧
    (mulLoop x.reverse y.reverse 0 [0]).length ≤ x.length + y.length := by
  obtain ⟨ux, hxh, hux, -⟩ := canonical_pos hx hx0
  obtain ⟨uy, hyh, huy, -⟩ := canonical_pos hy hy0
  have hxlen : 1 ≤ x.length := by
    cases x with
    | nil => exact absurd rfl hx.1
    | cons a t => simp
  obtain ⟨h1, h2, h3, h4, h5, h6, h7⟩ := mulLoop_spec x.reverse
    (fun e he => hx.2.1 e (List.mem_reverse.mp he)) y.reverse 0 [0]
    (fun e he => hy.2.1 e (List.mem_reverse.mp he))
    (by intro e he; simp at he; omega) (by simp) (by simpa using hxlen)
  refine ⟨?_, ?_, ?_, ?_⟩
  · rw [h1]
    have hz : val ([0] : List Nat) = 0 := rfl
    have hvx : valRev x.reverse = val x := rfl
    have hvy : valRev y.reverse = val y := rfl
    rw [hz, hvx, hvy]
    ring
  · exact h7 uy (by rw [List.getLast?_reverse]; exact hyh) huy ux
      (by rw [List.getLast?_reverse]; exact hxh) hux
  · have := h5 (by simpa using hy.1)
    simpa using this
  · simpa using h4

theorem multiply_val {m n : List Nat} (hm : Canonical m) (hn : Canonical n) :
    val (multiply m n) = val m * val n := by
  by_cases hz : m = [0] ∨ n = [0]
  · have hout : multiply m n = [0] := by rw [multiply, if_pos hz]
    rw [hout]
    rcases hz with rfl | rfl
    · have : val ([0] : List Nat) = 0 := rfl
      rw [this]
      simp
    · have : val ([0] : List Nat) = 0 := rfl
      rw [this]
      simp
  · have hm0 : m ≠ [0] := fun h => hz (Or.inl h)
    have hn0 : n ≠ [0] := fun h => hz (Or.inr h)
    by_cases hlen : n.length ≤ m.length
    · have hout : multiply m n = mulLoop m.reverse n.reverse 0 [0] := by
        rw [multiply, if_neg hz, if_pos hlen]
      rw [hout]
      exact (multiply_core hm hn hm0 hn0).1
    · have hout : multiply m n = mulLoop n.reverse m.reverse 0 [0] := by
        rw [multiply, if_neg hz, if_neg hlen]
      rw [hout]
      rw [(multiply_core hn hm hn0 hm0).1]
      ring

theorem multiply_canonical {m n : List Nat} (hm : Canonical m) (hn : Canonical n) :
    Canonical (multiply m n) := by
  by_cases hz : m = [0] ∨ n = [0]
  · have hout : multiply m n = [0] := by rw [multiply, if_pos hz]
    rw [hout]
    decide
  · have hm0 : m ≠ [0] := fun h => hz (Or.inl h)
    have hn0 : n ≠ [0] := fun h => hz (Or.inr h)
    by_cases hlen : n.length ≤ m.length
    · have hout : multiply m n = mulLoop m.reverse n.reverse 0 [0] := by
        rw [multiply, if_neg hz, if_pos hlen]
      rw [hout]
      exact (multiply_core hm hn hm0 hn0).2.1
    · have hout : multiply m n = mulLoop n.reverse m.reverse 0 [0] := by
        rw [multiply, if_neg hz, if_neg hlen]
      rw [hout]
      exact (multiply_core hn hm hn0 hm0).2.1

theorem multiply_length {m n : List Nat} (hm : Canonical m) (hn : Canonical n)
    (hm0 : m ≠ [0]) (hn0 : n ≠ [0]) :
    (multiply m n).length = m.length + n.length ∨
      (multiply m n).length = m.length + n.length - 1 := by
  have hz : ¬(m = [0] ∨ n = [0]) := by
    rintro (h | h)
    · exact hm0 h
    · exact hn0 h
  by_cases hlen : n.length ≤ m.length
  · have hout : multiply m n = mulLoop m.reverse n.reverse 0 [0] := by
      rw [multiply, if_neg hz, if_pos hlen]
    obtain ⟨-, -, hl1, hl2⟩ := multiply_core hm hn hm0 hn0
    rw [hout]
    omega
  · have hout : multiply m n = mulLoop n.reverse m.reverse 0 [0] := by
      rw [multiply, if_neg hz, if_neg hlen]
    obtain ⟨-, -, hl1, hl2⟩ := multiply_core hn hm hn0 hm0
    rw [hout]
    omega

theorem val_head_eq_zero {a : Nat} {t : List Nat} (h : a = 0) :
    val (a :: t) = val t := by
  subst h
  rw [val_cons]
  simp

/-- `multiply` returns the same digit string in either argument order, for
any pair of digit-valued operands — canonical or not. -/
theorem multiply_commutes {a b : List Nat} (ha : ∀ e ∈ a, e < 10)
    (hb : ∀ e ∈ b, e < 10) : multiply a b = multiply b a := by
  by_cases hz : a = [0] ∨ b = [0]
  · have h1 : multiply a b = [0] := by rw [multiply, if_pos hz]
    have h2 : multiply b a = [0] := by rw [multiply, if_pos (Or.symm hz)]
    rw [h1, h2]
  · have hz' : ¬(b = [0] ∨ a = [0]) := fun h => hz (Or.symm h)
    rcases Nat.lt_trichotomy a.length b.length with hlt | heq | hgt
    · have h1 : multiply a b = mulLoop b.reverse a.reverse 0 [0] := by
        rw [multiply, if_neg hz, if_neg (by omega)]
      have h2 : multiply b a = mulLoop b.reverse a.reverse 0 [0] := by
        rw [multiply, if_neg hz', if_pos (by omega)]
      rw [h1, h2]
    · cases a with
      | nil =>
        cases b with
        | nil => rfl
        | cons b0 bs => simp at heq
      | cons a0 as =>
        cases b with
        | nil => simp at heq
        | cons b0 bs =>
          have h1 : multiply (a0 :: as) (b0 :: bs) =
              mulLoop (a0 :: as).reverse (b0 :: bs).reverse 0 [0] := by
            rw [multiply, if_neg hz, if_pos (by omega)]
          have h2 : multiply (b0 :: bs) (a0 :: as) =
              mulLoop (b0 :: bs).reverse (a0 :: as).reverse 0 [0] := by
            rw [multiply, if_neg hz', if_pos (by omega)]
          rw [h1, h2]
          obtain ⟨v1, d1, ne1, u1, l1, c1, can1⟩ := mulLoop_spec (a0 :: as).reverse
            (fun e he => ha e (List.mem_reverse.mp he)) (b0 :: bs).reverse 0 [0]
            (fun e he => hb e (List.mem_reverse.mp he))
            (by intro e he; simp at he; omega) (by simp) (by simp)
          obtain ⟨v2, d2, ne2, u2, l2, c2, can2⟩ := mulLoop_spec (b0 :: bs).reverse
            (fun e he => hb e (List.mem_reverse.mp he)) (a0 :: as).reverse 0 [0]
            (fun e he => ha e (List.mem_reverse.mp he))
            (by intro e he; simp at he; omega) (by simp) (by simp)
          have hv0 : val ([0] : List Nat) = 0 := rfl
          have hva : valRev (a0 :: as).reverse = val (a0 :: as) := rfl
          have hvb : valRev (b0 :: bs).reverse = val (b0 :: bs) := rfl
          rw [hv0, hva, hvb] at v1 v2
          simp only [pow_zero, Nat.mul_one, Nat.zero_add] at v1 v2
          by_cases hheads : a0 ≠ 0 ∧ b0 ≠ 0
          · have hc1 : Canonical (mulLoop (a0 :: as).reverse (b0 :: bs).reverse 0 [0]) :=
              can1 b0 (by rw [List.getLast?_reverse]; rfl) hheads.2 a0
                (by rw [List.getLast?_reverse]; rfl) hheads.1
            have hc2 : Canonical (mulLoop (b0 :: bs).reverse (a0 :: as).reverse 0 [0]) :=
              can2 a0 (by rw [List.getLast?_reverse]; rfl) hheads.1 b0
                (by rw [List.getLast?_reverse]; rfl) hheads.2
            exact canonical_inj hc1 hc2 (by rw [v1, v2]; ring)
          · -- one leading digit is zero: both results have exactly
            -- `len a + len b - 1` digits and the same value
            have hprodlt : val (a0 :: as) * val (b0 :: bs) <
                10 ^ ((a0 :: as).length + (b0 :: bs).length - 1) := by
              rcases Decidable.not_and_iff_or_not.mp hheads with h0 | h0
              · have ha0 : a0 = 0 := by omega
                have hlta : val (a0 :: as) < 10 ^ as.length := by
                  rw [val_head_eq_zero ha0]
                  exact val_lt (fun e he => ha e (by simp [he]))
                have hltb : val (b0 :: bs) < 10 ^ (b0 :: bs).length :=
                  val_lt hb
                calc val (a0 :: as) * val (b0 :: bs)
                    < 10 ^ as.length * 10 ^ (b0 :: bs).length :=
                      Nat.mul_lt_mul'' hlta hltb
                  _ = 10 ^ ((a0 :: as).length + (b0 :: bs).length - 1) := by
                      rw [← pow_add]
                      congr 1
                      simp only [List.length_cons]
                      omega
              · have hb0 : b0 = 0 := by omega
                have hltb : val (b0 :: bs) < 10 ^ bs.length := by
                  rw [val_head_eq_zero hb0]
                  exact val_lt (fun e he => hb e (by simp [he]))
                have hlta : val (a0 :: as) < 10 ^ (a0 :: as).length :=
                  val_lt ha
                calc val (a0 :: as) * val (b0 :: bs)
                    < 10 ^ (a0 :: as).length * 10 ^ bs.length :=
                      Nat.mul_lt_mul'' hlta hltb
                  _ = 10 ^ ((a0 :: as).length + (b0 :: bs).length - 1) := by
                      rw [← pow_add]
                      congr 1
            have hlen1 : (mulLoop (a0 :: as).reverse (b0 :: bs).reverse 0 [0]).length =
                (a0 :: as).length + (b0 :: bs).length - 1 := by
              have hl := l1 (by simp)
              rcases c1 (by simp) with hc | hc
              · simp only [List.length_reverse] at hc hl
                omega
              · exfalso
                rw [v1] at hc
                have hexp : (a0 :: as).reverse.length + 0 + (b0 :: bs).reverse.length - 1 =
                    (a0 :: as).length + (b0 :: bs).length - 1 := by
                  simp only [List.length_reverse]
                  omega
                rw [hexp] at hc
                omega
            have hlen2 : (mulLoop (b0 :: bs).reverse (a0 :: as).reverse 0 [0]).length =
                (a0 :: as).length + (b0 :: bs).length - 1 := by
              have hl := l2 (by simp)
              rcases c2 (by simp) with hc | hc
              · simp only [List.length_reverse] at hc hl
                omega
              · exfalso
                rw [v2, Nat.mul_comm] at hc
                have hexp : (b0 :: bs).reverse.length + 0 + (a0 :: as).reverse.length - 1 =
                    (a0 :: as).length + (b0 :: bs).length - 1 := by
                  simp only [List.length_reverse]
                  omega
                rw [hexp] at hc
                omega
            have hrev : (mulLoop (a0 :: as).reverse (b0 :: bs).reverse 0 [0]).reverse =
                (mulLoop (b0 :: bs).reverse (a0 :: as).reverse 0 [0]).reverse := by
              apply valRev_inj
              · rw [List.length_reverse, List.length_reverse, hlen1, hlen2]
              · intro e he
                exact d1 e (List.mem_reverse.mp he)
              · intro e he
                exact d2 e (List.mem_reverse.mp he)
              · show val (mulLoop (a0 :: as).reverse (b0 :: bs).reverse 0 [0]) =
                  val (mulLoop (b0 :: bs).reverse (a0 :: as).reverse 0 [0])
                rw [v1, v2]
                ring
            have := congrArg List.reverse hrev
            simpa using this
    · have h1 : multiply a b = mulLoop a.reverse b.reverse 0 [0] := by
        rw [multiply, if_neg hz, if_pos (by omega)]
      have h2 : multiply b a = mulLoop a.reverse b.reverse 0 [0] := by
        rw [multiply, if_neg hz', if_neg (by omega)]
      rw [h1, h2]

/-! ## Exponentiation -/

theorem multiply_zero_left (r : List Nat) : multiply [0] r = [0] := by
  rw [multiply, if_pos (Or.inl rfl)]

/-- Once the running result has collapsed to `"0"`, it stays `"0"` and the
loop terminates as soon as the fuel covers the remaining exponent value. -/
theorem powerLoop_zero_spec : ∀ (fuel : Nat) (p : List Nat), Canonical p →
    val p ≤ fuel → powerLoop [0] fuel p [0] = some [0] := by
  intro fuel
  induction fuel with
  | zero =>
    intro p hp hv
    have h0 : p = [0] := canonical_val_zero hp (by omega)
    subst h0
    rfl
  | succ fuel ih =>
    intro p hp hv
    by_cases h : p = [0]
    · subst h
      rfl
    · obtain ⟨hdv, hdc⟩ := decrement_spec hp h
      have hstep : powerLoop [0] (fuel + 1) p [0] =
          powerLoop [0] fuel (decrement p) (multiply [0] [0]) := by
        simp [powerLoop, h]
      rw [hstep, multiply_zero_left]
      exact ih (decrement p) hdc (by omega)

/-- With base `"0"` and a positive canonical exponent, the loop's first
iteration multiplies the result by `"0"` (the short-circuit makes it `"0"`)
and the remaining iterations keep it there. -/
theorem power_zero_base {p : List Nat} (hp : Canonical p) (h0 : p ≠ [0]) :
    ∀ fuel, val p ≤ fuel → power [0] p fuel = some [0] := by
  intro fuel hf
  obtain ⟨u, hh, hu, hge⟩ := canonical_pos hp h0
  have hpow : 0 < 10 ^ (p.length - 1) := Nat.pow_pos (by omega)
  cases fuel with
  | zero => omega
  | succ f =>
    have hstep : power [0] p (f + 1) = powerLoop [0] f (decrement p) (multiply [0] [1]) := by
      simp [power, powerLoop, h0]
    rw [hstep, multiply_zero_left]
    obtain ⟨hdv, hdc⟩ := decrement_spec hp h0
    exact powerLoop_zero_spec f (decrement p) hdc (by omega)

/-! ## Scientific notation -/

/-- The fractional-digit loop equals the next `k` digits after position `i`,
padded on the right with `'0'` where the value runs out of digits. -/
theorem scinoFracLoop_eq (v : List Nat) : ∀ (k i : Nat), 1 ≤ v.length → 1 ≤ i →
    scinoFracLoop v i k =
      ((v.drop i).take k ++ List.replicate (k - (v.length - i)) 0).map unval := by
  intro k
  induction k with
  | zero =>
    intro i _ _
    simp [scinoFracLoop]
  | succ k ih =>
    intro i hlen hi
    have hstep : scinoFracLoop v i (k + 1) =
        (if i > v.length - 1 then '0' else unval (v.getD i 0)) ::
          scinoFracLoop v (i + 1) k := rfl
    rw [hstep]
    by_cases h : v.length ≤ i
    · have hguard : i > v.length - 1 := by omega
      rw [if_pos hguard]
      have hdrop : v.drop i = [] := List.drop_eq_nil_of_le h
      have hdrop' : v.drop (i + 1) = [] := List.drop_eq_nil_of_le (by omega)
      rw [ih (i + 1) hlen (by omega), hdrop, hdrop']
      have h1 : v.length - i = 0 := by omega
      have h2 : v.length - (i + 1) = 0 := by omega
      rw [h1, h2]
      simp only [List.take_nil, List.nil_append, Nat.sub_zero]
      rw [List.replicate_succ]
      rfl
    · have hguard : ¬(i > v.length - 1) := by omega
      rw [if_neg hguard]
      have hlt : i < v.length := by omega
      rw [List.drop_eq_getElem_cons hlt, List.getD_eq_getElem v 0 hlt]
      rw [ih (i + 1) hlen (by omega)]
      have hcnt : k + 1 - (v.length - i) = k - (v.length - (i + 1)) := by omega
      rw [hcnt]
      rfl

/-! ## The claims -/

/-- C1: the claim says `decrement("0") == "0"` (saturating at zero) and
`decrement("1") == "0"`.  The second holds, but the code turns the lone `0`
digit into `9` — the borrow scan rewrites `'0'` to `'9'` and no digit is left
to absorb the borrow — so `decrement("0") == "9"`, contradicting both the
spec and the code's own `// Decrement a Num (down to zero)` comment. -/
theorem c1_decrement_zero_bug :
    decrement [1] = [0] ∧ decrement [0] = [9] ∧ decrement [0] ≠ [0] := by
  decide

/-- C2: for canonical operands, `multiply` returns a digit string whose
numeric value is exactly the product of the operands' values. -/
theorem c2_multiply_exact {a b : List Nat} (ha : Canonical a) (hb : Canonical b) :
    val (multiply a b) = val a * val b :=
  multiply_val ha hb

theorem c2_multiply_exact_witness :
    val (multiply [1, 2] [3, 4]) = val [1, 2] * val [3, 4] ∧
      multiply [1, 2] [3, 4] = [4, 0, 8] :=
  ⟨c2_multiply_exact (by decide) (by decide), by decide⟩

/-- C3: decrementing a positive canonical value yields the canonical
representation of the predecessor: canonical (non-empty, no leading zero) and
exactly one unit smaller. -/
theorem c3_decrement_pred {n : List Nat} (hc : Canonical n) (h0 : n ≠ [0]) :
    Canonical (decrement n) ∧ val (decrement n) + 1 = val n :=
  ⟨(decrement_spec hc h0).2, (decrement_spec hc h0).1⟩

theorem c3_decrement_pred_witness :
    (Canonical (decrement [1, 0, 0, 0]) ∧
      val (decrement [1, 0, 0, 0]) + 1 = val [1, 0, 0, 0]) ∧
      decrement [1, 0, 0, 0] = [9, 9, 9] :=
  ⟨c3_decrement_pred (by decide) (by decide), by decide⟩

/-- C4, counterexample: `"0"` is a canonical 1-digit value, and
`multiply("0", "123")` short-circuits to the 1-digit `"0"`, which has neither
`1 + 3` nor `1 + 3 - 1` digits — the claim fails when an operand is zero. -/
theorem c4_counterexample :
    Canonical [0] ∧ Canonical [1, 2, 3] ∧ multiply [0] [1, 2, 3] = [0] ∧
      (multiply [0] [1, 2, 3]).length ≠ ([0] : List Nat).length + [1, 2, 3].length ∧
      (multiply [0] [1, 2, 3]).length ≠ ([0] : List Nat).length + [1, 2, 3].length - 1 := by
  decide

/-- C4, amended: for canonical *nonzero* operands of `n` and `m` digits, the
product has exactly `n + m` or `n + m - 1` digits. -/
theorem c4_multiply_length {a b : List Nat} (ha : Canonical a) (hb : Canonical b)
    (ha0 : a ≠ [0]) (hb0 : b ≠ [0]) :
    (multiply a b).length = a.length + b.length ∨
      (multiply a b).length = a.length + b.length - 1 :=
  multiply_length ha hb ha0 hb0

theorem c4_multiply_length_witness :
    ((multiply [9, 9] [9, 9]).length = [9, 9].length + [9, 9].length ∨
      (multiply [9, 9] [9, 9]).length = [9, 9].length + [9, 9].length - 1) ∧
      multiply [9, 9] [9, 9] = [9, 8, 0, 1] :=
  ⟨c4_multiply_length (by decide) (by decide) (by decide) (by decide), by decide⟩

/-- C5: on canonical operands, `compare` returns `1` exactly when the first is
numerically larger, `-1` exactly when it is smaller, and `0` exactly on equal
values (hence `compare a a = 0`). -/
theorem c5_compare_order {x y : List Nat} (hx : Canonical x) (hy : Canonical y) :
    (compare x y = 1 ↔ val y < val x) ∧
    (compare x y = -1 ↔ val x < val y) ∧
    (compare x y = 0 ↔ val x = val y) := by
  rcases Nat.lt_trichotomy x.length y.length with hlt | heq | hgt
  · have hv : val x < val y := val_lt_of_len_lt hx hy hlt
    have hout : compare x y = -1 := by
      rw [compare, if_neg (show ¬x.length > y.length by omega),
        if_pos (show x.length < y.length from hlt)]
    rw [hout]
    exact ⟨⟨fun h => absurd h (by decide), fun h => absurd hv (by omega)⟩,
      ⟨fun _ => hv, fun _ => rfl⟩,
      ⟨fun h => absurd h (by decide), fun h => absurd hv (by omega)⟩⟩
  · obtain ⟨h0, h1, h2⟩ := compareLex_spec x y heq hx.2.1 hy.2.1
    have hout : compare x y = compareLex x y := by
      rw [compare, if_neg (show ¬x.length > y.length by omega),
        if_neg (show ¬x.length < y.length by omega)]
    rw [hout]
    rcases Nat.lt_trichotomy (val x) (val y) with hv | hv | hv
    · rw [h2 hv]
      exact ⟨⟨fun h => absurd h (by decide), fun h => absurd hv (by omega)⟩,
        ⟨fun _ => hv, fun _ => rfl⟩,
        ⟨fun h => absurd h (by decide), fun h => absurd hv (by omega)⟩⟩
    · rw [h0 hv]
      exact ⟨⟨fun h => absurd h (by decide), fun h => absurd hv (by omega)⟩,
        ⟨fun h => absurd h (by decide), fun h => absurd hv (by omega)⟩,
        ⟨fun _ => hv, fun _ => rfl⟩⟩
    · rw [h1 hv]
      exact ⟨⟨fun _ => hv, fun _ => rfl⟩,
        ⟨fun h => absurd h (by decide), fun h => absurd hv (by omega)⟩,
        ⟨fun h => absurd h (by decide), fun h => absurd hv (by omega)⟩⟩
  · have hv : val y < val x := val_lt_of_len_lt hy hx hgt
    have hout : compare x y = 1 := by
      rw [compare, if_pos (show x.length > y.length from hgt)]
    rw [hout]
    exact ⟨⟨fun _ => hv, fun _ => rfl⟩,
      ⟨fun h => absurd h (by decide), fun h => absurd hv (by omega)⟩,
      ⟨fun h => absurd h (by decide), fun h => absurd hv (by omega)⟩⟩

theorem c5_compare_order_witness :
    ((compare [1, 2] [9] = 1 ↔ val [9] < val [1, 2]) ∧
      (compare [1, 2] [9] = -1 ↔ val [1, 2] < val [9]) ∧
      (compare [1, 2] [9] = 0 ↔ val [1, 2] = val [9])) ∧
      compare [1, 2] [9] = 1 :=
  ⟨c5_compare_order (by decide) (by decide), by decide⟩

/-- C6: both `add` and `multiply` are commutative at the level of the digit
strings themselves, for any Values (digit sequences with entries 0–9),
canonical or not. -/
theorem c6_commutative {a b : List Nat} (ha : ∀ d ∈ a, d < 10)
    (hb : ∀ d ∈ b, d < 10) :
    add a b = add b a ∧ multiply a b = multiply b a :=
  ⟨add_commutes a b, multiply_commutes ha hb⟩

theorem c6_commutative_witness :
    (add [0, 9] [1, 0] = add [1, 0] [0, 9] ∧
      multiply [0, 9] [1, 0] = multiply [1, 0] [0, 9]) ∧
      multiply [0, 9] [1, 0] = [0, 9, 0] :=
  ⟨c6_commutative (by decide) (by decide), by decide⟩

/-- C7: for a non-empty canonical value and `sigfigs ≥ 1`, `scino` emits the
leading digit, then (only when `sigfigs > 1`) a point followed by the next
`sigfigs - 1` digits padded on the right with `'0'`, then `E` and
`length - 1`; the one-argument overload defaults to 5 significant digits. -/
theorem c7_scino_format (v : List Nat) (s : Nat) (hv : Canonical v) (hs : 1 ≤ s) :
    scino v s = String.mk (unval (v.headD 0) ::
      ((if 1 < s then '.' :: ((v.drop 1).take (s - 1) ++
          List.replicate ((s - 1) - (v.length - 1)) 0).map unval else []) ++
        'E' :: (Nat.repr (v.length - 1)).data)) ∧
    scinoDefault v = scino v 5 := by
  have hlen : 1 ≤ v.length := by
    cases v with
    | nil => exact absurd rfl hv.1
    | cons d t => simp
  constructor
  · rw [scino, scinoFracLoop_eq v (s - 1) 1 hlen (by omega)]
  · rfl

theorem c7_scino_format_witness :
    scino [1, 2, 3, 4, 5] 3 = "1.23E4" ∧ scino [7] 5 = "7.0000E0" :=
  ⟨((c7_scino_format [1, 2, 3, 4, 5] 3 (by decide) (by decide)).1).trans (by decide),
    ((c7_scino_format [7] 5 (by decide) (by decide)).1).trans (by decide)⟩

/-- C8: `power(n, "0") == "1"` for every base and any fuel, because the loop
guard fails immediately; and `power("2", "10") == "1024"` in exactly ten
iterations. -/
theorem c8_power_base :
    (∀ (n : List Nat) (fuel : Nat), power n [0] fuel = some [1]) ∧
    power [2] [1, 0] 10 = some [1, 0, 2, 4] := by
  constructor
  · intro n fuel
    cases fuel with
    | zero => rfl
    | succ f => rfl
  · decide

/-- C9: on canonical operands, `add` and `multiply` return canonical digit
strings, and return the single digit `"0"` only when the numeric result is
zero. -/
theorem c9_closure {a b : List Nat} (ha : Canonical a) (hb : Canonical b) :
    (Canonical (add a b) ∧ (add a b = [0] → val a + val b = 0)) ∧
    (Canonical (multiply a b) ∧ (multiply a b = [0] → val a * val b = 0)) := by
  refine ⟨⟨add_canonical ha hb, ?_⟩, ⟨multiply_canonical ha hb, ?_⟩⟩
  · intro h
    have hv := (add_spec ha.2.1 hb.2.1).1
    rw [h] at hv
    have h0 : val ([0] : List Nat) = 0 := rfl
    omega
  · intro h
    have hv := multiply_val ha hb
    rw [h] at hv
    have h0 : val ([0] : List Nat) = 0 := rfl
    omega

theorem c9_closure_witness :
    ((Canonical (add [1] [2]) ∧ (add [1] [2] = [0] → val [1] + val [2] = 0)) ∧
      (Canonical (multiply [1] [2]) ∧ (multiply [1] [2] = [0] → val [1] * val [2] = 0))) ∧
      add [1] [2] = [3] ∧ multiply [1] [2] = [2] :=
  ⟨c9_closure (by decide) (by decide), by decide, by decide⟩

/-- C10: with base `"0"` and a positive canonical exponent, `power` returns
`"0"` (given fuel covering the exponent's value): the first iteration hits
`multiply`'s zero short-circuit and every later one keeps the result `"0"`. -/
theorem c10_power_zero_absorbs {p : List Nat} (hp : Canonical p) (h0 : p ≠ [0]) :
    ∀ fuel, val p ≤ fuel → power [0] p fuel = some [0] :=
  power_zero_base hp h0

theorem c10_power_zero_absorbs_witness :
    power [0] [3] 3 = some [0] ∧ val [3] ≤ 3 :=
  ⟨c10_power_zero_absorbs (by decide) (by decide) 3 (by decide), by decide⟩

end BigNum
